import Mathlib

/-!
Verification of the crossplaycheater image-to-board pipeline.

Shallow embedding conventions:
* machine floats (corner coordinates, areas, confidences) are modeled as `ℚ`;
* grayscale images are lists of pixel intensities (`List ℕ`);
* the external oracles (file system, image decoder, cv2 contour/approx
  routines, the EasyOCR engine) are parameters of the embedded functions;
* Python integer slices are modeled over `ℤ` together with the numpy
  slice-clamping rule (negative indices count from the end).
-/

namespace Crossplay

/-- BOARD_SIZE constant from board.py. -/
def BOARD_SIZE : Nat := 15

/-- Cell from board.py: an optional letter and the blank-tile flag.  The
letter is a single character (every writer stores a 1-character string). -/
structure Cell where
  letter : Option Char
  is_blank : Bool
deriving DecidableEq, Repr

/-- The default cell produced by the Cell() constructor. -/
def emptyCell : Cell := ⟨none, false⟩

/-- ScrabbleBoard from board.py: a grid of cells. -/
structure ScrabbleBoard where
  grid : List (List Cell)
deriving DecidableEq, Repr

/-- The ScrabbleBoard() default constructor: a 15x15 grid of empty cells. -/
def emptyBoard : ScrabbleBoard :=
  ⟨List.replicate BOARD_SIZE (List.replicate BOARD_SIZE emptyCell)⟩

/-- Per-character rule of ScrabbleBoard.from_strings: a dot keeps the
default cell, any other character produces
Cell(letter=char.upper(), is_blank=char.islower()). -/
def charToCell (ch : Char) : Cell :=
  if ch = '.' then emptyCell else ⟨some ch.toUpper, ch.isLower⟩

/-- ScrabbleBoard.from_strings: checks that there are 15 rows of 15
characters (raising ValueError otherwise, modeled as none) and fills the
grid character by character. -/
def fromStrings (rows : List String) : Option ScrabbleBoard :=
  if rows.length ≠ BOARD_SIZE then none
  else if rows.any (fun r => r.length ≠ BOARD_SIZE) then none
  else some ⟨rows.map (fun r => r.data.map charToCell)⟩

/-- Cell.__str__: a dot for an empty cell, else the letter lowercased for a
blank tile and uppercased otherwise. -/
def cellChar (c : Cell) : Char :=
  match c.letter with
  | none => '.'
  | some l => if c.is_blank then l.toLower else l.toUpper

/-- ScrabbleBoard.to_strings: join the cell characters of each row. -/
def toStrings (b : ScrabbleBoard) : List String :=
  b.grid.map (fun row => String.mk (row.map cellChar))

/-- ScrabbleBoard.set: replace the cell at (row, col) with
Cell(letter=letter.upper() if letter else None, is_blank=is_blank). -/
def boardSet (b : ScrabbleBoard) (row col : Nat) (letter : Option Char)
    (is_blank : Bool) : ScrabbleBoard :=
  ⟨List.modify (fun r => r.set col ⟨letter.map Char.toUpper, is_blank⟩) row b.grid⟩

/-- The character set the round-trip property quantifies over: a dot or an
ASCII letter. -/
def allowedChars : List Char :=
  ".ABCDEFGHIJKLMNOPQRSTUVWXYZabcdefghijklmnopqrstuvwxyz".data

theorem cellChar_charToCell : ∀ ch ∈ allowedChars, cellChar (charToCell ch) = ch := by
  decide

theorem string_mk_data (s : String) : String.mk s.data = s := rfl

/-- Claim C6: for every list of 15 strings, each of exactly 15 characters
drawn from a dot and the ASCII letters, building a board with
ScrabbleBoard.from_strings and serializing it with to_strings returns the
original list of row strings. -/
theorem claim6_from_to_strings_roundtrip (rows : List String)
    (hlen : rows.length = 15)
    (hrow : ∀ r ∈ rows, r.length = 15 ∧ ∀ ch ∈ r.data, ch ∈ allowedChars) :
    (fromStrings rows).map toStrings = some rows := by
  have hnolen : ¬ rows.length ≠ BOARD_SIZE := by simp [BOARD_SIZE, hlen]
  have hnoany : rows.any (fun r => r.length ≠ BOARD_SIZE) = false := by
    rw [List.any_eq_false]
    intro r hr
    simp [BOARD_SIZE, (hrow r hr).1]
  rw [fromStrings, if_neg hnolen, if_neg (by rw [hnoany]; simp)]
  simp only [Option.map_some', Option.some.injEq, toStrings]
  simp only [List.map_map]
  conv_rhs => rw [show rows = rows.map id from (List.map_id rows).symm]
  apply List.map_congr_left
  intro r hr
  simp only [Function.comp_apply, id_eq, List.map_map]
  have : r.data.map (cellChar ∘ charToCell) = r.data := by
    conv_rhs => rw [show r.data = r.data.map id from (List.map_id r.data).symm]
    apply List.map_congr_left
    intro ch hch
    exact cellChar_charToCell ch ((hrow r hr).2 ch hch)
  rw [this, string_mk_data]

/-- Concrete instance of claim C6 on a specific well-formed board string list. -/
theorem claim6_witness :
    (["...............", "...............", "...............",
      "...............", "...............", "...............",
      "...............", ".......Qi......", "...............",
      "...............", "...............", "...............",
      "...............", "...............", "..............Z"].length = 15) ∧
    (fromStrings ["...............", "...............", "...............",
      "...............", "...............", "...............",
      "...............", ".......Qi......", "...............",
      "...............", "...............", "...............",
      "...............", "...............", "..............Z"]).map toStrings
      = some ["...............", "...............", "...............",
      "...............", "...............", "...............",
      "...............", ".......Qi......", "...............",
      "...............", "...............", "...............",
      "...............", "...............", "..............Z"] :=
  ⟨by decide, claim6_from_to_strings_roundtrip _ (by decide) (by decide)⟩

/-- An element of a list with one position modified is either an old
element or the image of an old element. -/
theorem mem_modify {α : Type} {a : α} (f : α → α) :
    ∀ (n : Nat) (l : List α), a ∈ List.modify f n l → a ∈ l ∨ ∃ b ∈ l, a = f b := by
  intro n l
  induction l generalizing n with
  | nil =>
    cases n <;> simp [List.modify]
  | cons x xs ih =>
    cases n with
    | zero =>
      simp only [List.modify, List.modifyTailIdx, List.modifyHead_cons, List.mem_cons]
      rintro (rfl | h)
      · exact Or.inr ⟨x, by simp⟩
      · exact Or.inl (by simp [h])
    | succ n =>
      simp only [List.modify, List.modifyTailIdx, List.mem_cons] at *
      rintro (rfl | h)
      · exact Or.inl (Or.inl rfl)
      · rcases ih n h with h' | ⟨b, hb, rfl⟩
        · exact Or.inl (Or.inr h')
        · exact Or.inr ⟨b, Or.inr hb, rfl⟩

/-- A property preserved by every step of a left fold holds of the result. -/
theorem foldl_preserve {α : Type} {β : Type} (P : β → Prop) (step : β → α → β)
    (h : ∀ b a, P b → P (step b a)) :
    ∀ (l : List α) (b : β), P b → P (l.foldl step b) := by
  intro l
  induction l with
  | nil => intro b hb; exact hb
  | cons x xs ih => intro b hb; exact ih _ (h b x hb)

theorem char_isLower_iff (c : Char) : c.isLower = true ↔ 97 ≤ c.toNat ∧ c.toNat ≤ 122 := by
  simp only [Char.isLower, Bool.and_eq_true, decide_eq_true_eq, ge_iff_le]
  exact Iff.rfl

/-- Uppercasing a character never yields an ASCII lowercase letter. -/
theorem isLower_toUpper (c : Char) : (c.toUpper).isLower = false := by
  rw [Char.toUpper]
  split
  case isTrue h =>
    obtain ⟨k, hk⟩ : ∃ k, Char.toNat c = k := ⟨_, rfl⟩
    rw [hk] at h ⊢
    obtain ⟨h1, h2⟩ := h
    interval_cases k <;> decide
  case isFalse h =>
    rcases Bool.eq_false_or_eq_true c.isLower with ht | hf
    · exact absurd ((char_isLower_iff c).mp ht) h
    · exact hf

/-- The cell-assembly loop of BoardAnalyzer.analyze (lines 111-117): start
from a fresh board and, for each (row, col) in row-major order, call
board.set(row, col, letter) — with is_blank left at its default False —
whenever a letter was recognized.  The composite per-cell recognition
outcome is abstracted as a function of the position. -/
def assembleBoard (recog : Nat → Nat → Option Char) : ScrabbleBoard :=
  (List.range BOARD_SIZE).foldl (fun b row =>
    (List.range BOARD_SIZE).foldl (fun b col =>
      match recog row col with
      | some l => boardSet b row col (some l) false
      | none => b) b) emptyBoard

/-- Every cell of the board has its blank flag off. -/
def allNonBlank (b : ScrabbleBoard) : Prop :=
  ∀ row ∈ b.grid, ∀ cell ∈ row, cell.is_blank = false

/-- The grid is exactly 15 rows of 15 cells. -/
def wellSized (b : ScrabbleBoard) : Prop :=
  b.grid.length = BOARD_SIZE ∧ ∀ row ∈ b.grid, row.length = BOARD_SIZE

theorem allNonBlank_boardSet (b : ScrabbleBoard) (row col : Nat)
    (l : Option Char) (h : allNonBlank b) : allNonBlank (boardSet b row col l false) := by
  intro r hr cell hc
  rcases mem_modify _ row b.grid hr with hr' | ⟨r0, hr0, rfl⟩
  · exact h r hr' cell hc
  · rcases List.mem_or_eq_of_mem_set hc with hc' | rfl
    · exact h r0 hr0 cell hc'
    · rfl

theorem wellSized_boardSet (b : ScrabbleBoard) (row col : Nat)
    (l : Option Char) (bl : Bool) (h : wellSized b) :
    wellSized (boardSet b row col l bl) := by
  obtain ⟨hlen, hrows⟩ := h
  constructor
  · simpa [boardSet, List.length_modify] using hlen
  · intro r hr
    rcases mem_modify _ row b.grid hr with hr' | ⟨r0, hr0, rfl⟩
    · exact hrows r hr'
    · rw [List.length_set]
      exact hrows r0 hr0

theorem assembleBoard_allNonBlank (recog : Nat → Nat → Option Char) :
    allNonBlank (assembleBoard recog) := by
  unfold assembleBoard
  apply foldl_preserve allNonBlank
  · intro b row hb
    apply foldl_preserve allNonBlank
    · intro b' col hb'
      cases recog row col with
      | some l => exact allNonBlank_boardSet b' row col (some l) hb'
      | none => exact hb'
    · exact hb
  · intro row hrow cell hcell
    have := List.eq_of_mem_replicate hrow
    subst this
    have := List.eq_of_mem_replicate hcell
    subst this
    rfl

theorem assembleBoard_wellSized (recog : Nat → Nat → Option Char) :
    wellSized (assembleBoard recog) := by
  unfold assembleBoard
  apply foldl_preserve wellSized
  · intro b row hb
    apply foldl_preserve wellSized
    · intro b' col hb'
      cases recog row col with
      | some l => exact wellSized_boardSet b' row col (some l) false hb'
      | none => exact hb'
    · exact hb
  · constructor
    · simp [emptyBoard]
    · intro row hrow
      have := List.eq_of_mem_replicate hrow
      subst this
      simp

/-- Claim C10: every board assembled by analyze has is_blank = False in all
its cells (board.set is always called without the is_blank argument), and
its row-string serialization contains no lowercase letter. -/
theorem claim10_no_blank_tiles (recog : Nat → Nat → Option Char) :
    (∀ row ∈ (assembleBoard recog).grid, ∀ cell ∈ row, cell.is_blank = false) ∧
    (∀ s ∈ toStrings (assembleBoard recog), ∀ ch ∈ s.data, ch.isLower = false) := by
  have h := assembleBoard_allNonBlank recog
  refine ⟨h, ?_⟩
  intro s hs ch hch
  rw [toStrings] at hs
  rcases List.mem_map.mp hs with ⟨row, hrow, rfl⟩
  replace hch : ch ∈ row.map cellChar := hch
  rcases List.mem_map.mp hch with ⟨cell, hcell, rfl⟩
  rcases cell with ⟨letter, bl⟩
  have hbl : bl = false := h row hrow _ hcell
  subst hbl
  cases letter with
  | none => decide
  | some l => simpa [cellChar] using isLower_toUpper l

/-- Concrete instance of claim C10: a recognizer that reads a q at (7, 7). -/
theorem claim10_witness :
    (∀ row ∈ (assembleBoard (fun r c => if r = 7 ∧ c = 7 then some 'q' else none)).grid,
      ∀ cell ∈ row, cell.is_blank = false) ∧
    (∀ s ∈ toStrings (assembleBoard (fun r c => if r = 7 ∧ c = 7 then some 'q' else none)),
      ∀ ch ∈ s.data, ch.isLower = false) :=
  claim10_no_blank_tiles (fun r c => if r = 7 ∧ c = 7 then some 'q' else none)

/-- Error taxonomy of BoardAnalyzer.analyze: FileNotFoundError when the
path does not exist, ValueError when decoding fails. -/
inductive AnalyzeErr where
  | inputNotFound
  | invalidImage
deriving DecidableEq

/-- BoardAnalyzer.analyze: raise if the path does not exist, decode the
image (none models a failed cv2.imread), then run the pipeline and
assemble the board.  Images are abstracted to their (height, width) shape
and recog to the composite per-image, per-cell recognition outcome. -/
def analyzeModel (pathExists : Bool) (decoded : Option (Nat × Nat))
    (recog : Nat × Nat → Nat → Nat → Option Char) :
    Except AnalyzeErr ScrabbleBoard :=
  if ¬ pathExists then .error .inputNotFound
  else
    match decoded with
    | none => .error .invalidImage
    | some img => .ok (assembleBoard (recog img))

/-- Claim C5: analyze fails with the InputNotFound error exactly when the
path does not exist (independently of the decoder, hence before any image
processing), fails with the InvalidImage error exactly when the file
exists and decoding fails, and otherwise returns a board whose grid is
exactly 15 rows of 15 cells. -/
theorem claim5_analyze_errors (decoded : Option (Nat × Nat))
    (recog : Nat × Nat → Nat → Nat → Option Char) :
    (∀ pe, analyzeModel pe decoded recog = .error .inputNotFound ↔ pe = false) ∧
    (∀ pe, analyzeModel pe decoded recog = .error .invalidImage ↔
      (pe = true ∧ decoded = none)) ∧
    (∀ img, decoded = some img →
      analyzeModel true decoded recog = .ok (assembleBoard (recog img)) ∧
      (assembleBoard (recog img)).grid.length = 15 ∧
      ∀ row ∈ (assembleBoard (recog img)).grid, row.length = 15) := by
  refine ⟨?_, ?_, ?_⟩
  · intro pe
    cases pe with
    | false => simp [analyzeModel]
    | true =>
      cases decoded with
      | none => simp [analyzeModel]
      | some img => simp [analyzeModel]
  · intro pe
    cases pe with
    | false => simp [analyzeModel]
    | true =>
      cases decoded with
      | none => simp [analyzeModel]
      | some img => simp [analyzeModel]
  · rintro img rfl
    obtain ⟨h1, h2⟩ := assembleBoard_wellSized (recog img)
    exact ⟨by simp [analyzeModel], h1, h2⟩

/-- Concrete instance of claim C5 at a decoded 8x8 image and a recognizer
that never reads a letter. -/
theorem claim5_witness :
    (∀ pe, analyzeModel pe (some (8, 8)) (fun _ _ _ => none) = .error .inputNotFound ↔
      pe = false) ∧
    (∀ pe, analyzeModel pe (some (8, 8)) (fun _ _ _ => none) = .error .invalidImage ↔
      (pe = true ∧ (some (8, 8) : Option (Nat × Nat)) = none)) ∧
    (∀ img, (some (8, 8) : Option (Nat × Nat)) = some img →
      analyzeModel true (some (8, 8)) (fun _ _ _ => none) =
        .ok (assembleBoard ((fun (_ : Nat × Nat) (_ _ : Nat) => (none : Option Char)) img)) ∧
      (assembleBoard ((fun (_ : Nat × Nat) (_ _ : Nat) => (none : Option Char)) img)).grid.length = 15 ∧
      ∀ row ∈ (assembleBoard ((fun (_ : Nat × Nat) (_ _ : Nat) => (none : Option Char)) img)).grid,
        row.length = 15) :=
  claim5_analyze_errors (some (8, 8)) (fun _ _ _ => none)

/-- Nominal cell size along one axis of the rectified board image:
cell_height = height // 15, cell_width = width // 15. -/
def cellSide (n : Nat) : Nat := n / BOARD_SIZE

/-- Lower bound of the untrimmed cell along one axis: i * side. -/
def untrimmedLo (n i : Nat) : Nat := i * cellSide n

/-- Upper (exclusive) bound of the untrimmed cell: (i + 1) * side. -/
def untrimmedHi (n i : Nat) : Nat := (i + 1) * cellSide n

/-- margin = max(2, min(cell_height, cell_width) // 10). -/
def marginOf (H W : Nat) : Nat := max 2 (min (cellSide H) (cellSide W) / 10)

/-- Trimmed slice bounds along the row axis, as Python integers:
y1 = min(y1 + margin, y2 - 1) then y2 = max(y2 - margin, y1 + 1). -/
def trimY (H W row : Nat) : ℤ × ℤ :=
  let y1 : ℤ := untrimmedLo H row
  let y2 : ℤ := untrimmedHi H row
  let m : ℤ := marginOf H W
  let y1t := min (y1 + m) (y2 - 1)
  (y1t, max (y2 - m) (y1t + 1))

/-- Trimmed slice bounds along the column axis. -/
def trimX (H W col : Nat) : ℤ × ℤ :=
  let x1 : ℤ := untrimmedLo W col
  let x2 : ℤ := untrimmedHi W col
  let m : ℤ := marginOf H W
  let x1t := min (x1 + m) (x2 - 1)
  (x1t, max (x2 - m) (x1t + 1))

/-- numpy slice index resolution on an axis of length n: a negative index
counts from the end, then the index is clamped to [0, n]. -/
def sliceClamp (n : Nat) (i : ℤ) : Nat :=
  if i < 0 then ((n : ℤ) + i).toNat else min i.toNat n

/-- Pixel-row range [lo, hi) actually selected by a cell slice. -/
def cellRows (H W row : Nat) : Nat × Nat :=
  (sliceClamp H (trimY H W row).1, sliceClamp H (trimY H W row).2)

/-- Pixel-column range [lo, hi) actually selected by a cell slice. -/
def cellCols (H W col : Nat) : Nat × Nat :=
  (sliceClamp W (trimX H W col).1, sliceClamp W (trimX H W col).2)

/-- BoardAnalyzer._extract_cells: the 15x15 grid of trimmed cell slices,
each described by its selected pixel-row and pixel-column ranges. -/
def extractCells (H W : Nat) : List (List ((Nat × Nat) × (Nat × Nat))) :=
  (List.range BOARD_SIZE).map (fun row =>
    (List.range BOARD_SIZE).map (fun col => (cellRows H W row, cellCols H W col)))

/-- Along one axis, a coordinate below 15 * side lies in the untrimmed
bounds of exactly one of the 15 cells. -/
theorem axis_unique_cover (n y : Nat) (h : y < 15 * cellSide n) :
    ∃! i : Nat, i < 15 ∧ untrimmedLo n i ≤ y ∧ y < untrimmedHi n i := by
  have hs : 0 < cellSide n := by
    rcases Nat.eq_zero_or_pos (cellSide n) with hz | hp
    · rw [hz] at h; omega
    · exact hp
  refine ⟨y / cellSide n, ⟨?_, ?_, ?_⟩, ?_⟩
  · exact (Nat.div_lt_iff_lt_mul hs).mpr (by linarith)
  · exact Nat.div_mul_le_self y (cellSide n)
  · have := Nat.lt_div_mul_add (a := y) hs
    unfold untrimmedHi
    nlinarith [Nat.lt_div_mul_add (a := y) hs]
  · rintro i ⟨hi15, hlo, hhi⟩
    exact (Nat.div_eq_of_lt_le hlo (by simpa [untrimmedHi] using hhi)).symm

/-- sliceClamp is monotone on nonnegative indices. -/
theorem sliceClamp_mono_nonneg (n : Nat) (i j : ℤ) (hi : 0 ≤ i) (hij : i ≤ j) :
    sliceClamp n i ≤ sliceClamp n j := by
  unfold sliceClamp
  split_ifs <;> omega

/-- Adjacency of trimmed slices along one abstract axis: with a nonnegative
cell start a, cell size s and margin m at least 2, the clamped end of one
trimmed cell never exceeds the clamped start of the next. -/
theorem trim_adjacent_axis (n : Nat) (s m a : ℤ) (hm : 2 ≤ m) (hs : 0 ≤ s)
    (ha : 0 ≤ a) (hsa : s = 0 → a = 0) :
    sliceClamp n (max (a + s - m) (min (a + m) (a + s - 1) + 1)) ≤
      sliceClamp n (min (a + s + m) (a + s + s - 1)) := by
  unfold sliceClamp
  simp only [min_def, max_def]
  split_ifs <;> omega

/-- After the margin trim, the slice selected by a cell never reaches past
the start of the slice selected by the next cell along the row axis. -/
theorem trim_rows_adjacent (H W row : Nat) :
    (cellRows H W row).2 ≤ (cellRows H W (row + 1)).1 := by
  have hm : (2 : ℤ) ≤ (marginOf H W : ℤ) := by
    have := le_max_left 2 (min (cellSide H) (cellSide W) / 10)
    exact_mod_cast this
  have key := trim_adjacent_axis H (cellSide H) (marginOf H W)
    ((row : ℤ) * (cellSide H : ℤ)) hm (by positivity) (by positivity)
    (fun h => by rw [h, mul_zero])
  have e1 : ((untrimmedLo H row : Nat) : ℤ) = (row : ℤ) * (cellSide H : ℤ) := by
    unfold untrimmedLo; push_cast; ring
  have e2 : ((untrimmedHi H row : Nat) : ℤ) =
      (row : ℤ) * (cellSide H : ℤ) + (cellSide H : ℤ) := by
    unfold untrimmedHi; push_cast; ring
  have e3 : ((untrimmedLo H (row + 1) : Nat) : ℤ) =
      (row : ℤ) * (cellSide H : ℤ) + (cellSide H : ℤ) := by
    unfold untrimmedLo; push_cast; ring
  have e4 : ((untrimmedHi H (row + 1) : Nat) : ℤ) =
      (row : ℤ) * (cellSide H : ℤ) + (cellSide H : ℤ) + (cellSide H : ℤ) := by
    unfold untrimmedHi; push_cast; ring
  unfold cellRows trimY
  rw [e1, e2, e3, e4]
  convert key using 3

/-- Column version of the adjacency bound. -/
theorem trim_cols_adjacent (H W col : Nat) :
    (cellCols H W col).2 ≤ (cellCols H W (col + 1)).1 := by
  have hm : (2 : ℤ) ≤ (marginOf H W : ℤ) := by
    have := le_max_left 2 (min (cellSide H) (cellSide W) / 10)
    exact_mod_cast this
  have key := trim_adjacent_axis W (cellSide W) (marginOf H W)
    ((col : ℤ) * (cellSide W : ℤ)) hm (by positivity) (by positivity)
    (fun h => by rw [h, mul_zero])
  have e1 : ((untrimmedLo W col : Nat) : ℤ) = (col : ℤ) * (cellSide W : ℤ) := by
    unfold untrimmedLo; push_cast; ring
  have e2 : ((untrimmedHi W col : Nat) : ℤ) =
      (col : ℤ) * (cellSide W : ℤ) + (cellSide W : ℤ) := by
    unfold untrimmedHi; push_cast; ring
  have e3 : ((untrimmedLo W (col + 1) : Nat) : ℤ) =
      (col : ℤ) * (cellSide W : ℤ) + (cellSide W : ℤ) := by
    unfold untrimmedLo; push_cast; ring
  have e4 : ((untrimmedHi W (col + 1) : Nat) : ℤ) =
      (col : ℤ) * (cellSide W : ℤ) + (cellSide W : ℤ) + (cellSide W : ℤ) := by
    unfold untrimmedHi; push_cast; ring
  unfold cellCols trimX
  rw [e1, e2, e3, e4]
  convert key using 3

/-- Claim C2 (amended): _extract_cells produces exactly 15 x 15 = 225
cells; the untrimmed cell bounds tile the sub-rectangle
[0, 15*(H//15)) x [0, 15*(W//15)) of the image with no gaps and no
overlaps — which is the whole image exactly when both dimensions are
multiples of 15 — and after the margin trim no two adjacent cells
overlap. -/
theorem claim2_cell_tiling (H W : Nat) :
    ((extractCells H W).length = 15 ∧ ∀ r ∈ extractCells H W, r.length = 15) ∧
    (∀ y x, y < 15 * cellSide H → x < 15 * cellSide W →
      ∃! rc : Nat × Nat, rc.1 < 15 ∧ rc.2 < 15 ∧
        untrimmedLo H rc.1 ≤ y ∧ y < untrimmedHi H rc.1 ∧
        untrimmedLo W rc.2 ≤ x ∧ x < untrimmedHi W rc.2) ∧
    ((15 ∣ H → 15 * cellSide H = H) ∧ (15 ∣ W → 15 * cellSide W = W)) ∧
    (∀ row, (cellRows H W row).2 ≤ (cellRows H W (row + 1)).1) ∧
    (∀ col, (cellCols H W col).2 ≤ (cellCols H W (col + 1)).1) := by
  refine ⟨⟨?_, ?_⟩, ?_, ⟨?_, ?_⟩, trim_rows_adjacent H W, trim_cols_adjacent H W⟩
  · simp [extractCells, BOARD_SIZE]
  · intro r hr
    rcases List.mem_map.mp hr with ⟨row, _, rfl⟩
    simp [BOARD_SIZE]
  · intro y x hy hx
    obtain ⟨r, ⟨hr15, hrlo, hrhi⟩, hru⟩ := axis_unique_cover H y hy
    obtain ⟨c, ⟨hc15, hclo, hchi⟩, hcu⟩ := axis_unique_cover W x hx
    refine ⟨(r, c), ⟨hr15, hc15, hrlo, hrhi, hclo, hchi⟩, ?_⟩
    rintro ⟨r', c'⟩ ⟨h1, h2, h3, h4, h5, h6⟩
    have er := hru r' ⟨h1, h3, h4⟩
    have ec := hcu c' ⟨h2, h5, h6⟩
    simp [Prod.ext_iff, er, ec]
  · intro h
    exact Nat.mul_div_cancel' h
  · intro h
    exact Nat.mul_div_cancel' h

/-- Concrete instance of claim C2 on a 30 x 45 image, with the unique
covering cell exhibited for the pixel (17, 10). -/
theorem claim2_witness :
    ((extractCells 30 45).length = 15 ∧ ∀ r ∈ extractCells 30 45, r.length = 15) ∧
    (∃! rc : Nat × Nat, rc.1 < 15 ∧ rc.2 < 15 ∧
      untrimmedLo 30 rc.1 ≤ 17 ∧ 17 < untrimmedHi 30 rc.1 ∧
      untrimmedLo 45 rc.2 ≤ 10 ∧ 10 < untrimmedHi 45 rc.2) ∧
    (15 ∣ 30 → 15 * cellSide 30 = 30) ∧
    (∀ row, (cellRows 30 45 row).2 ≤ (cellRows 30 45 (row + 1)).1) :=
  ⟨(claim2_cell_tiling 30 45).1,
   (claim2_cell_tiling 30 45).2.1 17 10 (by decide) (by decide),
   (claim2_cell_tiling 30 45).2.2.1.1,
   (claim2_cell_tiling 30 45).2.2.2.1⟩

/-- Counterexample to claim C2 as stated: on a 16 x 16 image the untrimmed
cell bounds do not tile the whole image — pixel row 15 lies in no cell
(cell_height = 16 // 15 = 1, so the cells only cover rows 0..14). -/
theorem claim2_counterexample :
    ¬ (∀ y, y < 16 → ∃ r, r < 15 ∧ untrimmedLo 16 r ≤ y ∧ y < untrimmedHi 16 r) := by
  decide

/-- Bounds of the trimmed slice along one abstract axis: with cell start a,
cell size s at least 1, margin m at least 2 and the cell contained in the
axis, the trimmed bounds stay inside [0, n] and keep at least one pixel. -/
theorem trim_axis_bounds (n : Nat) (s m a : ℤ) (hm : 2 ≤ m) (hs : 1 ≤ s)
    (ha : 0 ≤ a) (hub : a + s ≤ (n : ℤ)) :
    (0 ≤ min (a + m) (a + s - 1) ∧
     min (a + m) (a + s - 1) < max (a + s - m) (min (a + m) (a + s - 1) + 1) ∧
     max (a + s - m) (min (a + m) (a + s - 1) + 1) ≤ (n : ℤ)) ∧
    sliceClamp n (min (a + m) (a + s - 1)) <
      sliceClamp n (max (a + s - m) (min (a + m) (a + s - 1) + 1)) := by
  unfold sliceClamp
  simp only [min_def, max_def]
  split_ifs <;> omega

/-- Claim C9 (amended): whenever the rectified image is at least 15 pixels
tall and wide (so that the nominal cell size is at least 1), the trimmed
slice bounds of every cell satisfy 0 ≤ y1 < y2 ≤ H and 0 ≤ x1 < x2 ≤ W as
Python integers, and the selected pixel ranges keep width and height of at
least 1 pixel. -/
theorem claim9_trim_clamped (H W row col : Nat) (hH : 15 ≤ H) (hW : 15 ≤ W)
    (hrow : row < 15) (hcol : col < 15) :
    (0 ≤ (trimY H W row).1 ∧ (trimY H W row).1 < (trimY H W row).2 ∧
      (trimY H W row).2 ≤ (H : ℤ)) ∧
    (0 ≤ (trimX H W col).1 ∧ (trimX H W col).1 < (trimX H W col).2 ∧
      (trimX H W col).2 ≤ (W : ℤ)) ∧
    (cellRows H W row).1 < (cellRows H W row).2 ∧
    (cellCols H W col).1 < (cellCols H W col).2 := by
  have hm : (2 : ℤ) ≤ (marginOf H W : ℤ) := by
    have := le_max_left 2 (min (cellSide H) (cellSide W) / 10)
    exact_mod_cast this
  have hA := trim_axis_bounds H (cellSide H) (marginOf H W)
    ((untrimmedLo H row : Nat) : ℤ) hm ?_ (by positivity) ?_
  rotate_left
  · unfold cellSide BOARD_SIZE
    have : (1 : Nat) ≤ H / 15 := by omega
    exact_mod_cast this
  · have hHs : (row + 1) * cellSide H ≤ H := by
      calc (row + 1) * cellSide H ≤ 15 * cellSide H :=
            Nat.mul_le_mul_right _ (by omega)
        _ ≤ H := by unfold cellSide BOARD_SIZE; omega
    have e : (untrimmedLo H row : Nat) + cellSide H = (row + 1) * cellSide H := by
      unfold untrimmedLo; ring
    have : (untrimmedLo H row : Nat) + cellSide H ≤ H := by omega
    exact_mod_cast this
  have hB := trim_axis_bounds W (cellSide W) (marginOf H W)
    ((untrimmedLo W col : Nat) : ℤ) hm ?_ (by positivity) ?_
  rotate_left
  · unfold cellSide BOARD_SIZE
    have : (1 : Nat) ≤ W / 15 := by omega
    exact_mod_cast this
  · have hWs : (col + 1) * cellSide W ≤ W := by
      calc (col + 1) * cellSide W ≤ 15 * cellSide W :=
            Nat.mul_le_mul_right _ (by omega)
        _ ≤ W := by unfold cellSide BOARD_SIZE; omega
    have e : (untrimmedLo W col : Nat) + cellSide W = (col + 1) * cellSide W := by
      unfold untrimmedLo; ring
    have : (untrimmedLo W col : Nat) + cellSide W ≤ W := by omega
    exact_mod_cast this
  have eY : ((untrimmedHi H row : Nat) : ℤ) =
      ((untrimmedLo H row : Nat) : ℤ) + (cellSide H : ℤ) := by
    unfold untrimmedLo untrimmedHi; push_cast; ring
  have eX : ((untrimmedHi W col : Nat) : ℤ) =
      ((untrimmedLo W col : Nat) : ℤ) + (cellSide W : ℤ) := by
    unfold untrimmedLo untrimmedHi; push_cast; ring
  have tY : trimY H W row =
      (min (((untrimmedLo H row : Nat) : ℤ) + (marginOf H W : ℤ))
        (((untrimmedLo H row : Nat) : ℤ) + (cellSide H : ℤ) - 1),
       max (((untrimmedLo H row : Nat) : ℤ) + (cellSide H : ℤ) - (marginOf H W : ℤ))
        (min (((untrimmedLo H row : Nat) : ℤ) + (marginOf H W : ℤ))
          (((untrimmedLo H row : Nat) : ℤ) + (cellSide H : ℤ) - 1) + 1)) := by
    unfold trimY; rw [eY]
  have tX : trimX H W col =
      (min (((untrimmedLo W col : Nat) : ℤ) + (marginOf H W : ℤ))
        (((untrimmedLo W col : Nat) : ℤ) + (cellSide W : ℤ) - 1),
       max (((untrimmedLo W col : Nat) : ℤ) + (cellSide W : ℤ) - (marginOf H W : ℤ))
        (min (((untrimmedLo W col : Nat) : ℤ) + (marginOf H W : ℤ))
          (((untrimmedLo W col : Nat) : ℤ) + (cellSide W : ℤ) - 1) + 1)) := by
    unfold trimX; rw [eX]
  unfold cellRows cellCols
  rw [tY, tX]
  exact ⟨⟨hA.1.1, hA.1.2.1, hA.1.2.2⟩, ⟨hB.1.1, hB.1.2.1, hB.1.2.2⟩, hA.2, hB.2⟩

/-- Concrete instance of claim C9 on a 30 x 30 image at cell (0, 0). -/
theorem claim9_witness :
    (0 ≤ (trimY 30 30 0).1 ∧ (trimY 30 30 0).1 < (trimY 30 30 0).2 ∧
      (trimY 30 30 0).2 ≤ (30 : ℤ)) ∧
    (0 ≤ (trimX 30 30 0).1 ∧ (trimX 30 30 0).1 < (trimX 30 30 0).2 ∧
      (trimX 30 30 0).2 ≤ (30 : ℤ)) ∧
    (cellRows 30 30 0).1 < (cellRows 30 30 0).2 ∧
    (cellCols 30 30 0).1 < (cellCols 30 30 0).2 :=
  claim9_trim_clamped 30 30 0 0 (by decide) (by decide) (by decide) (by decide)

/-- Counterexample to claim C9 as stated: on a 1 x 1 image the cell at
(0, 0) gets the slice [-1:0, -1:0], which numpy resolves to an empty
selection — the cell image is empty, even though y1 < y2 holds over ℤ. -/
theorem claim9_counterexample :
    ¬ (cellRows 1 1 0).1 < (cellRows 1 1 0).2 := by
  decide

/-- A 2-D point: the float32 corner coordinates, modeled as rationals. -/
abbrev Pt : Type := ℚ × ℚ

/-- Horizontal coordinate of a point. -/
def xcoord (p : Pt) : ℚ := p.1

/-- Vertical coordinate of a point. -/
def ycoord (p : Pt) : ℚ := p.2

/-- Stable insertion into a list sorted by key.  numpy argsort on at most
four elements runs an insertion sort with strict comparisons, which is
stable. -/
def insertStable (key : Pt → ℚ) (p : Pt) : List Pt → List Pt
  | [] => [p]
  | q :: qs => if key p ≤ key q then p :: q :: qs else q :: insertStable key p qs

/-- Stable sort by key. -/
def sortStable (key : Pt → ℚ) (l : List Pt) : List Pt :=
  l.foldr (insertStable key) []

/-- BoardAnalyzer._order_corners: stable-sort the points by vertical
coordinate to split them into a top pair and a bottom pair, sort each pair
by horizontal coordinate, and return [top-left, top-right, bottom-right,
bottom-left] (the reverse places bottom-right before bottom-left).  On the
4-point inputs of the pipeline the match always takes the first arm. -/
def orderCorners (l : List Pt) : List Pt :=
  match sortStable ycoord l with
  | [a, b, c, d] => sortStable xcoord [a, b] ++ (sortStable xcoord [c, d]).reverse
  | s => s

theorem insertStable_perm (key : Pt → ℚ) (p : Pt) (l : List Pt) :
    (insertStable key p l).Perm (p :: l) := by
  induction l with
  | nil => exact List.Perm.refl _
  | cons q qs ih =>
    rw [insertStable]
    split_ifs
    · exact List.Perm.refl _
    · exact (List.Perm.cons q ih).trans (List.Perm.swap p q qs)

theorem sortStable_perm (key : Pt → ℚ) (l : List Pt) : (sortStable key l).Perm l := by
  induction l with
  | nil => exact List.Perm.refl _
  | cons x xs ih =>
    have : sortStable key (x :: xs) = insertStable key x (sortStable key xs) := rfl
    rw [this]
    exact (insertStable_perm key x (sortStable key xs)).trans (List.Perm.cons x ih)

theorem insertStable_sorted (key : Pt → ℚ) (p : Pt) (l : List Pt)
    (h : l.Sorted (fun u v => key u ≤ key v)) :
    (insertStable key p l).Sorted (fun u v => key u ≤ key v) := by
  induction l with
  | nil => simp [insertStable]
  | cons q qs ih =>
    rw [insertStable]
    obtain ⟨hq, hqs⟩ := List.sorted_cons.mp h
    split_ifs with hle
    · exact List.sorted_cons.mpr ⟨fun r hr => by
        rcases List.mem_cons.mp hr with rfl | hr
        · exact hle
        · exact le_trans hle (hq r hr), h⟩
    · refine List.sorted_cons.mpr ⟨fun r hr => ?_, ih hqs⟩
      have hmem := (insertStable_perm key p qs).mem_iff.mp hr
      rcases List.mem_cons.mp hmem with rfl | hr'
      · exact le_of_lt (not_le.mp hle)
      · exact hq r hr'

theorem sortStable_sorted (key : Pt → ℚ) (l : List Pt) :
    (sortStable key l).Sorted (fun u v => key u ≤ key v) := by
  induction l with
  | nil => simp [sortStable]
  | cons x xs ih => exact insertStable_sorted key x (sortStable key xs) ih

theorem sortStable_pair (key : Pt → ℚ) (u v : Pt) :
    sortStable key [u, v] = if key u ≤ key v then [u, v] else [v, u] := by
  show insertStable key u [v] = _
  rw [insertStable]
  split_ifs <;> rfl

theorem list_length_four {α : Type} (l : List α) (h : l.length = 4) :
    ∃ a b c d, l = [a, b, c, d] := by
  rcases l with _ | ⟨a, l⟩
  · simp at h
  rcases l with _ | ⟨b, l⟩
  · simp at h
  rcases l with _ | ⟨c, l⟩
  · simp at h
  rcases l with _ | ⟨d, l⟩
  · simp at h
  rcases l with _ | ⟨e, l⟩
  · exact ⟨a, b, c, d, rfl⟩
  · simp at h

/-- Reduction of _order_corners once the vertical sort is known. -/
theorem orderCorners_four (l : List Pt) (u v w z : Pt)
    (h : sortStable ycoord l = [u, v, w, z]) :
    orderCorners l = sortStable xcoord [u, v] ++ (sortStable xcoord [w, z]).reverse := by
  unfold orderCorners
  rw [h]

/-- Invariant of the canonical order [top-left, top-right, bottom-right,
bottom-left]: the top pair lies (weakly) above the bottom pair, each pair
is sorted by horizontal coordinate, and on horizontal ties the stable sort
has kept the vertically sorted order. -/
def OrdInv (a b c d : Pt) : Prop :=
  ycoord a ≤ ycoord c ∧ ycoord a ≤ ycoord d ∧
  ycoord b ≤ ycoord c ∧ ycoord b ≤ ycoord d ∧
  xcoord a ≤ xcoord b ∧ (xcoord a = xcoord b → ycoord a ≤ ycoord b) ∧
  xcoord d ≤ xcoord c ∧ (xcoord d = xcoord c → ycoord d ≤ ycoord c)

/-- The output of _order_corners on any 4-point input satisfies the
canonical-order invariant. -/
theorem orderCorners_inv (p0 p1 p2 p3 a b c d : Pt)
    (h : orderCorners [p0, p1, p2, p3] = [a, b, c, d]) : OrdInv a b c d := by
  have hlen : (sortStable ycoord [p0, p1, p2, p3]).length = 4 :=
    (sortStable_perm ycoord [p0, p1, p2, p3]).length_eq
  obtain ⟨u, v, w, z, hsl⟩ := list_length_four _ hlen
  have hsorted := sortStable_sorted ycoord [p0, p1, p2, p3]
  rw [hsl] at hsorted
  simp only [List.sorted_cons, List.mem_cons, List.mem_singleton, List.not_mem_nil,
    List.sorted_nil, and_true] at hsorted
  have huv : ycoord u ≤ ycoord v := hsorted.1 v (by tauto)
  have huw : ycoord u ≤ ycoord w := hsorted.1 w (by tauto)
  have huz : ycoord u ≤ ycoord z := hsorted.1 z (by tauto)
  have hvw : ycoord v ≤ ycoord w := hsorted.2.1 w (by tauto)
  have hvz : ycoord v ≤ ycoord z := hsorted.2.1 z (by tauto)
  have hwz : ycoord w ≤ ycoord z := hsorted.2.2.1 z (by tauto)
  rw [orderCorners_four _ u v w z hsl, sortStable_pair, sortStable_pair] at h
  rcases le_or_lt (xcoord u) (xcoord v) with h1 | h1 <;>
    rcases le_or_lt (xcoord w) (xcoord z) with h2 | h2
  · rw [if_pos h1, if_pos h2] at h
    have he : ([u, v] ++ ([w, z] : List Pt).reverse) = [u, v, z, w] := rfl
    rw [he] at h
    simp only [List.cons.injEq, and_true] at h
    obtain ⟨rfl, rfl, rfl, rfl⟩ := h
    exact ⟨huz, huw, hvz, hvw, h1, fun _ => huv, h2, fun _ => hwz⟩
  · rw [if_pos h1, if_neg (not_le.mpr h2)] at h
    have he : ([u, v] ++ ([z, w] : List Pt).reverse) = [u, v, w, z] := rfl
    rw [he] at h
    simp only [List.cons.injEq, and_true] at h
    obtain ⟨rfl, rfl, rfl, rfl⟩ := h
    exact ⟨huw, huz, hvw, hvz, h1, fun _ => huv,
      le_of_lt h2, fun heq => absurd heq (ne_of_lt h2)⟩
  · rw [if_neg (not_le.mpr h1), if_pos h2] at h
    have he : ([v, u] ++ ([w, z] : List Pt).reverse) = [v, u, z, w] := rfl
    rw [he] at h
    simp only [List.cons.injEq, and_true] at h
    obtain ⟨rfl, rfl, rfl, rfl⟩ := h
    exact ⟨hvz, hvw, huz, huw, le_of_lt h1,
      fun heq => absurd heq (ne_of_lt h1), h2, fun _ => hwz⟩
  · rw [if_neg (not_le.mpr h1), if_neg (not_le.mpr h2)] at h
    have he : ([v, u] ++ ([z, w] : List Pt).reverse) = [v, u, w, z] := rfl
    rw [he] at h
    simp only [List.cons.injEq, and_true] at h
    obtain ⟨rfl, rfl, rfl, rfl⟩ := h
    exact ⟨hvw, hvz, huw, huz, le_of_lt h1,
      fun heq => absurd heq (ne_of_lt h1),
      le_of_lt h2, fun heq => absurd heq (ne_of_lt h2)⟩

theorem top_pair_fix (a b : Pt) (hab : xcoord a ≤ xcoord b)
    (htie : xcoord a = xcoord b → ycoord a ≤ ycoord b) :
    sortStable xcoord [a, b] = [a, b] ∧
    (ycoord b < ycoord a → sortStable xcoord [b, a] = [a, b]) := by
  constructor
  · rw [sortStable_pair, if_pos hab]
  · intro hba
    rw [sortStable_pair]
    split_ifs with hle
    · have heq : xcoord a = xcoord b := le_antisymm hab hle
      exact absurd (htie heq) (not_le.mpr hba)
    · rfl

theorem bottom_pair_fix (c d : Pt) (hdc : xcoord d ≤ xcoord c)
    (htie : xcoord d = xcoord c → ycoord d ≤ ycoord c) :
    (ycoord c ≤ ycoord d → (sortStable xcoord [c, d]).reverse = [c, d]) ∧
    (ycoord d < ycoord c → (sortStable xcoord [d, c]).reverse = [c, d]) := by
  constructor
  · intro hcd
    rw [sortStable_pair]
    split_ifs with hle
    · have heq : xcoord d = xcoord c := le_antisymm hdc hle
      have hy : ycoord c = ycoord d := le_antisymm hcd (htie heq)
      have : c = d := Prod.ext_iff.mpr ⟨heq.symm, hy⟩
      rw [this]
      rfl
    · rfl
  · intro _
    rw [sortStable_pair, if_pos hdc]
    rfl

/-- A list satisfying the canonical-order invariant is a fixed point of
_order_corners. -/
theorem orderCorners_fix (a b c d : Pt) (h : OrdInv a b c d) :
    orderCorners [a, b, c, d] = [a, b, c, d] := by
  obtain ⟨hac, had, hbc, hbd, hab, habtie, hdc, hdctie⟩ := h
  have e0 : sortStable ycoord [a, b, c, d] =
      insertStable ycoord a (insertStable ycoord b (insertStable ycoord c [d])) := rfl
  rcases le_or_lt (ycoord c) (ycoord d) with hcd | hcd
  · have e1 : insertStable ycoord c [d] = [c, d] := by
      show insertStable ycoord c [d] = [c, d]
      rw [insertStable, if_pos hcd]
    have e2 : insertStable ycoord b [c, d] = [b, c, d] := by
      rw [insertStable, if_pos hbc]
    rcases le_or_lt (ycoord a) (ycoord b) with hab2 | hab2
    · have e3 : insertStable ycoord a [b, c, d] = [a, b, c, d] := by
        rw [insertStable, if_pos hab2]
      have hsl : sortStable ycoord [a, b, c, d] = [a, b, c, d] := by
        rw [e0, e1, e2, e3]
      rw [orderCorners_four _ a b c d hsl, (top_pair_fix a b hab habtie).1,
        (bottom_pair_fix c d hdc hdctie).1 hcd]
      rfl
    · have e3 : insertStable ycoord a [b, c, d] = [b, a, c, d] := by
        rw [insertStable, if_neg (not_le.mpr hab2), insertStable, if_pos hac]
      have hsl : sortStable ycoord [a, b, c, d] = [b, a, c, d] := by
        rw [e0, e1, e2, e3]
      rw [orderCorners_four _ b a c d hsl, (top_pair_fix a b hab habtie).2 hab2,
        (bottom_pair_fix c d hdc hdctie).1 hcd]
      rfl
  · have e1 : insertStable ycoord c [d] = [d, c] := by
      show insertStable ycoord c [d] = [d, c]
      rw [insertStable, if_neg (not_le.mpr hcd)]
      rfl
    have e2 : insertStable ycoord b [d, c] = [b, d, c] := by
      rw [insertStable, if_pos hbd]
    rcases le_or_lt (ycoord a) (ycoord b) with hab2 | hab2
    · have e3 : insertStable ycoord a [b, d, c] = [a, b, d, c] := by
        rw [insertStable, if_pos hab2]
      have hsl : sortStable ycoord [a, b, c, d] = [a, b, d, c] := by
        rw [e0, e1, e2, e3]
      rw [orderCorners_four _ a b d c hsl, (top_pair_fix a b hab habtie).1,
        (bottom_pair_fix c d hdc hdctie).2 hcd]
      rfl
    · have e3 : insertStable ycoord a [b, d, c] = [b, a, d, c] := by
        rw [insertStable, if_neg (not_le.mpr hab2), insertStable, if_pos had]
      have hsl : sortStable ycoord [a, b, c, d] = [b, a, d, c] := by
        rw [e0, e1, e2, e3]
      rw [orderCorners_four _ b a d c hsl, (top_pair_fix a b hab habtie).2 hab2,
        (bottom_pair_fix c d hdc hdctie).2 hcd]
      rfl

theorem list_length_two {α : Type} (l : List α) (h : l.length = 2) :
    ∃ a b, l = [a, b] := by
  rcases l with _ | ⟨a, l⟩
  · simp at h
  rcases l with _ | ⟨b, l⟩
  · simp at h
  rcases l with _ | ⟨c, l⟩
  · exact ⟨a, b, rfl⟩
  · simp at h

/-- On inputs whose keys are pairwise distinct, the stable sort depends
only on the multiset of elements. -/
theorem sortStable_eq_of_perm (key : Pt → ℚ) (l1 l2 : List Pt) (hp : l1.Perm l2)
    (hk : l2.Pairwise (fun p q => key p ≠ key q)) :
    sortStable key l1 = sortStable key l2 := by
  haveI : IsAntisymm Pt (fun p q => key p < key q) :=
    ⟨fun p q hpq hqp => absurd hqp (not_lt.mpr (le_of_lt hpq))⟩
  have h1 := sortStable_perm key l1
  have h2 := sortStable_perm key l2
  have hk1 : (sortStable key l1).Pairwise (fun p q => key p ≠ key q) :=
    (List.Perm.pairwise_iff (fun h => Ne.symm h) (h1.trans hp)).mpr hk
  have hk2 : (sortStable key l2).Pairwise (fun p q => key p ≠ key q) :=
    (List.Perm.pairwise_iff (fun h => Ne.symm h) h2).mpr hk
  have hs1 : (sortStable key l1).Pairwise (fun p q => key p < key q) :=
    ((sortStable_sorted key l1).and hk1).imp
      (fun h => lt_of_le_of_ne h.1 h.2)
  have hs2 : (sortStable key l2).Pairwise (fun p q => key p < key q) :=
    ((sortStable_sorted key l2).and hk2).imp
      (fun h => lt_of_le_of_ne h.1 h.2)
  exact List.eq_of_perm_of_sorted (h1.trans (hp.trans h2.symm)) hs1 hs2

/-- Claim C3 (amended): _order_corners is idempotent on every 4-point
input; and whenever the four points have pairwise distinct vertical
coordinates, every permutation of them yields the same canonical
(top-left, top-right, bottom-right, bottom-left) output.  (With ties in
the vertical coordinate the output does depend on the input order, see the
counterexample.) -/
theorem claim3_order_corners (p0 p1 p2 p3 : Pt) :
    orderCorners (orderCorners [p0, p1, p2, p3]) = orderCorners [p0, p1, p2, p3] ∧
    (∀ l : List Pt, l.Perm [p0, p1, p2, p3] →
      ([p0, p1, p2, p3] : List Pt).Pairwise (fun p q => ycoord p ≠ ycoord q) →
      orderCorners l = orderCorners [p0, p1, p2, p3]) := by
  constructor
  · have hlen : (sortStable ycoord [p0, p1, p2, p3]).length = 4 :=
      (sortStable_perm ycoord [p0, p1, p2, p3]).length_eq
    obtain ⟨u, v, w, z, hsl⟩ := list_length_four _ hlen
    have hout := orderCorners_four [p0, p1, p2, p3] u v w z hsl
    obtain ⟨a, b, hab⟩ := list_length_two (sortStable xcoord [u, v])
      (sortStable_perm xcoord [u, v]).length_eq
    obtain ⟨c, d, hcd⟩ := list_length_two (sortStable xcoord [w, z])
      (sortStable_perm xcoord [w, z]).length_eq
    have hout4 : orderCorners [p0, p1, p2, p3] = [a, b, d, c] := by
      rw [hout, hab, hcd]
      rfl
    rw [hout4]
    exact orderCorners_fix a b d c (orderCorners_inv p0 p1 p2 p3 a b d c hout4)
  · intro l hp hk
    unfold orderCorners
    rw [sortStable_eq_of_perm ycoord l [p0, p1, p2, p3] hp hk]

/-- Concrete instance of claim C3: idempotence on a specific quadrilateral
and order-independence for one of its permutations (distinct vertical
coordinates). -/
theorem claim3_witness :
    orderCorners (orderCorners [((0 : ℚ), (0 : ℚ)), (3, 1), (3, 2), (0, 3)]) =
      orderCorners [((0 : ℚ), (0 : ℚ)), (3, 1), (3, 2), (0, 3)] ∧
    orderCorners [((3 : ℚ), (2 : ℚ)), (0, 0), (0, 3), (3, 1)] =
      orderCorners [((0 : ℚ), (0 : ℚ)), (3, 1), (3, 2), (0, 3)] :=
  ⟨(claim3_order_corners (0, 0) (3, 1) (3, 2) (0, 3)).1,
   (claim3_order_corners (0, 0) (3, 1) (3, 2) (0, 3)).2
     [(3, 2), (0, 0), (0, 3), (3, 1)] (by decide) (by decide)⟩

/-- Counterexample to claim C3 as stated: with the four collinear points
(0,0), (1,0), (2,0), (3,0) — all sharing the vertical coordinate 0 — the
cyclic permutation [(2,0), (3,0), (0,0), (1,0)] produces a different
output, so _order_corners is not order-independent on tied vertical
coordinates. -/
theorem claim3_counterexample :
    List.Perm [((2 : ℚ), (0 : ℚ)), (3, 0), (0, 0), (1, 0)]
      [((0 : ℚ), (0 : ℚ)), (1, 0), (2, 0), (3, 0)] ∧
    orderCorners [((2 : ℚ), (0 : ℚ)), (3, 0), (0, 0), (1, 0)] ≠
      orderCorners [((0 : ℚ), (0 : ℚ)), (1, 0), (2, 0), (3, 0)] := by
  constructor
  · decide
  · decide

/-- Squared Euclidean distance between two points (np.linalg.norm of the
difference, squared). -/
def distSq (p q : Pt) : ℚ := (xcoord p - xcoord q)^2 + (ycoord p - ycoord q)^2

/-- Squared lengths of the four edges measured in _perspective_transform
between the ordered corners [tl, tr, br, bl]: width_top = |tr - tl|,
width_bottom = |br - bl|, height_left = |bl - tl|, height_right = |br - tr|;
the maximum of the squares corresponds to the maximum of the lengths. -/
def maxEdgeSq (tl tr br bl : Pt) : ℚ :=
  max (max (distSq tr tl) (distSq br bl)) (max (distSq bl tl) (distSq br tr))

/-- Output side of _perspective_transform:
size = int(max(width_top, width_bottom, height_left, height_right)), after
the corners have been put in canonical order.  The integer truncation of
the real square root of a nonnegative rational q is Nat.sqrt ⌊q⌋, which is
the computable form used here; the bridge to the real square root is
proved in the claim theorem. -/
def transformSize (corners : List Pt) : Nat :=
  match orderCorners corners with
  | [tl, tr, br, bl] => Nat.sqrt (Int.toNat ⌊maxEdgeSq tl tr br bl⌋)
  | _ => 0

/-- Claim C7 (amended): the side of the square produced by
_perspective_transform is the integer truncation of the maximum of the 4
Euclidean edge lengths between the ordered corners: it satisfies
size ≤ maxEdge < size + 1, but is not equal to the maximum whenever that
maximum is not an integer (see the counterexample). -/
theorem claim7_transform_size (p0 p1 p2 p3 tl tr br bl : Pt)
    (h : orderCorners [p0, p1, p2, p3] = [tl, tr, br, bl]) :
    ((transformSize [p0, p1, p2, p3] : ℝ) ≤
      max (max (Real.sqrt ((distSq tr tl : ℚ) : ℝ)) (Real.sqrt ((distSq br bl : ℚ) : ℝ)))
        (max (Real.sqrt ((distSq bl tl : ℚ) : ℝ)) (Real.sqrt ((distSq br tr : ℚ) : ℝ)))) ∧
    (max (max (Real.sqrt ((distSq tr tl : ℚ) : ℝ)) (Real.sqrt ((distSq br bl : ℚ) : ℝ)))
        (max (Real.sqrt ((distSq bl tl : ℚ) : ℝ)) (Real.sqrt ((distSq br tr : ℚ) : ℝ))) <
      (transformSize [p0, p1, p2, p3] : ℝ) + 1) := by
  have hts : transformSize [p0, p1, p2, p3] =
      Nat.sqrt (Int.toNat ⌊maxEdgeSq tl tr br bl⌋) := by
    unfold transformSize
    rw [h]
  have hmono : Monotone Real.sqrt := fun x y hxy => Real.sqrt_le_sqrt hxy
  have hM : max (max (Real.sqrt ((distSq tr tl : ℚ) : ℝ)) (Real.sqrt ((distSq br bl : ℚ) : ℝ)))
        (max (Real.sqrt ((distSq bl tl : ℚ) : ℝ)) (Real.sqrt ((distSq br tr : ℚ) : ℝ)))
      = Real.sqrt ((maxEdgeSq tl tr br bl : ℚ) : ℝ) := by
    unfold maxEdgeSq
    push_cast
    rw [hmono.map_max, hmono.map_max, hmono.map_max]
  have hq0 : (0 : ℚ) ≤ maxEdgeSq tl tr br bl := by
    unfold maxEdgeSq distSq
    positivity
  have hq0R : (0 : ℝ) ≤ ((maxEdgeSq tl tr br bl : ℚ) : ℝ) := by exact_mod_cast hq0
  have hfl0 : (0 : ℤ) ≤ ⌊maxEdgeSq tl tr br bl⌋ := Int.floor_nonneg.mpr hq0
  rw [hts, hM]
  constructor
  · rw [Real.le_sqrt (by positivity) hq0R]
    have hk2 : (Nat.sqrt (Int.toNat ⌊maxEdgeSq tl tr br bl⌋))^2 ≤
        Int.toNat ⌊maxEdgeSq tl tr br bl⌋ := Nat.sqrt_le' _
    calc ((Nat.sqrt (Int.toNat ⌊maxEdgeSq tl tr br bl⌋) : ℕ) : ℝ)^2
        ≤ ((Int.toNat ⌊maxEdgeSq tl tr br bl⌋ : ℕ) : ℝ) := by exact_mod_cast hk2
      _ = ((⌊maxEdgeSq tl tr br bl⌋ : ℤ) : ℝ) := by
          rw [show ((⌊maxEdgeSq tl tr br bl⌋ : ℤ) : ℝ) =
            ((Int.toNat ⌊maxEdgeSq tl tr br bl⌋ : ℕ) : ℝ) from by
              exact_mod_cast (Int.toNat_of_nonneg hfl0).symm]
      _ ≤ ((maxEdgeSq tl tr br bl : ℚ) : ℝ) := by
          exact_mod_cast Int.floor_le (maxEdgeSq tl tr br bl)
  · rw [Real.sqrt_lt' (by positivity)]
    have hlt : Int.toNat ⌊maxEdgeSq tl tr br bl⌋ <
        (Nat.sqrt (Int.toNat ⌊maxEdgeSq tl tr br bl⌋) + 1)^2 := by
      simpa [Nat.succ_eq_add_one] using Nat.lt_succ_sqrt' (Int.toNat ⌊maxEdgeSq tl tr br bl⌋)
    have h1 : ((maxEdgeSq tl tr br bl : ℚ) : ℝ) < ((⌊maxEdgeSq tl tr br bl⌋ : ℤ) : ℝ) + 1 := by
      exact_mod_cast Int.lt_floor_add_one (maxEdgeSq tl tr br bl)
    have hcast : ((Int.toNat ⌊maxEdgeSq tl tr br bl⌋ : ℕ) : ℝ) =
        ((⌊maxEdgeSq tl tr br bl⌋ : ℤ) : ℝ) := by
      exact_mod_cast Int.toNat_of_nonneg hfl0
    have h2 : ((⌊maxEdgeSq tl tr br bl⌋ : ℤ) : ℝ) + 1 ≤
        (((Nat.sqrt (Int.toNat ⌊maxEdgeSq tl tr br bl⌋) : ℕ) : ℝ) + 1)^2 := by
      have hle : Int.toNat ⌊maxEdgeSq tl tr br bl⌋ + 1 ≤
          (Nat.sqrt (Int.toNat ⌊maxEdgeSq tl tr br bl⌋) + 1)^2 := Nat.succ_le_of_lt hlt
      rw [← hcast]
      exact_mod_cast hle
    calc ((maxEdgeSq tl tr br bl : ℚ) : ℝ)
        < ((⌊maxEdgeSq tl tr br bl⌋ : ℤ) : ℝ) + 1 := h1
      _ ≤ _ := h2

/-- Concrete instance of claim C7: an axis-aligned square with corners
(0,0), (10,0), (10,10), (0,10), already in canonical order. -/
theorem claim7_witness :
    ((transformSize [((0 : ℚ), (0 : ℚ)), (10, 0), (10, 10), (0, 10)] : ℝ) ≤
      max (max (Real.sqrt ((distSq ((10 : ℚ), (0 : ℚ)) ((0 : ℚ), (0 : ℚ)) : ℚ) : ℝ))
          (Real.sqrt ((distSq ((10 : ℚ), (10 : ℚ)) ((0 : ℚ), (10 : ℚ)) : ℚ) : ℝ)))
        (max (Real.sqrt ((distSq ((0 : ℚ), (10 : ℚ)) ((0 : ℚ), (0 : ℚ)) : ℚ) : ℝ))
          (Real.sqrt ((distSq ((10 : ℚ), (10 : ℚ)) ((10 : ℚ), (0 : ℚ)) : ℚ) : ℝ)))) ∧
    (max (max (Real.sqrt ((distSq ((10 : ℚ), (0 : ℚ)) ((0 : ℚ), (0 : ℚ)) : ℚ) : ℝ))
          (Real.sqrt ((distSq ((10 : ℚ), (10 : ℚ)) ((0 : ℚ), (10 : ℚ)) : ℚ) : ℝ)))
        (max (Real.sqrt ((distSq ((0 : ℚ), (10 : ℚ)) ((0 : ℚ), (0 : ℚ)) : ℚ) : ℝ))
          (Real.sqrt ((distSq ((10 : ℚ), (10 : ℚ)) ((10 : ℚ), (0 : ℚ)) : ℚ) : ℝ))) <
      (transformSize [((0 : ℚ), (0 : ℚ)), (10, 0), (10, 10), (0, 10)] : ℝ) + 1) :=
  claim7_transform_size (0, 0) (10, 0) (10, 10) (0, 10)
    (0, 0) (10, 0) (10, 10) (0, 10) (by decide)

/-- Counterexample to claim C7 as stated: for the diamond with corners
(0,0), (1,1), (2,0), (1,-1) every edge has length √2, yet the produced
side is int(√2) = 1 ≠ √2 — integer truncation, not floating-point
rounding. -/
theorem claim7_counterexample :
    transformSize [((0 : ℚ), (0 : ℚ)), (1, 1), (2, 0), (1, -1)] = 1 ∧
    max (max (Real.sqrt ((distSq ((1 : ℚ), (-1 : ℚ)) ((0 : ℚ), (0 : ℚ)) : ℚ) : ℝ))
          (Real.sqrt ((distSq ((2 : ℚ), (0 : ℚ)) ((1 : ℚ), (1 : ℚ)) : ℚ) : ℝ)))
        (max (Real.sqrt ((distSq ((1 : ℚ), (1 : ℚ)) ((0 : ℚ), (0 : ℚ)) : ℚ) : ℝ))
          (Real.sqrt ((distSq ((2 : ℚ), (0 : ℚ)) ((1 : ℚ), (-1 : ℚ)) : ℚ) : ℝ))) ≠
      (transformSize [((0 : ℚ), (0 : ℚ)), (1, 1), (2, 0), (1, -1)] : ℝ) := by
  have hsqrt2 : Nat.sqrt 2 = 1 := by
    have ha : 1 ≤ Nat.sqrt 2 := Nat.le_sqrt.mpr (by norm_num)
    have hb : Nat.sqrt 2 < 2 := Nat.sqrt_lt.mpr (by norm_num)
    omega
  have horder : orderCorners [((0 : ℚ), (0 : ℚ)), (1, 1), (2, 0), (1, -1)] =
      [((0 : ℚ), (0 : ℚ)), (1, -1), (2, 0), (1, 1)] := by decide
  have e1 : (distSq ((1 : ℚ), (-1 : ℚ)) ((0 : ℚ), (0 : ℚ)) : ℚ) = 2 := by
    norm_num [distSq, xcoord, ycoord]
  have e2 : (distSq ((2 : ℚ), (0 : ℚ)) ((1 : ℚ), (1 : ℚ)) : ℚ) = 2 := by
    norm_num [distSq, xcoord, ycoord]
  have e3 : (distSq ((1 : ℚ), (1 : ℚ)) ((0 : ℚ), (0 : ℚ)) : ℚ) = 2 := by
    norm_num [distSq, xcoord, ycoord]
  have e4 : (distSq ((2 : ℚ), (0 : ℚ)) ((1 : ℚ), (-1 : ℚ)) : ℚ) = 2 := by
    norm_num [distSq, xcoord, ycoord]
  have hq : maxEdgeSq ((0 : ℚ), (0 : ℚ)) ((1 : ℚ), (-1 : ℚ)) ((2 : ℚ), (0 : ℚ))
      ((1 : ℚ), (1 : ℚ)) = 2 := by
    unfold maxEdgeSq
    rw [e1, e2, e3, e4]
    simp
  have h1 : transformSize [((0 : ℚ), (0 : ℚ)), (1, 1), (2, 0), (1, -1)] = 1 := by
    unfold transformSize
    rw [horder]
    show Nat.sqrt (Int.toNat ⌊maxEdgeSq ((0 : ℚ), (0 : ℚ)) ((1 : ℚ), (-1 : ℚ))
      ((2 : ℚ), (0 : ℚ)) ((1 : ℚ), (1 : ℚ))⌋) = 1
    rw [hq]
    rw [show ⌊(2 : ℚ)⌋ = 2 by decide]
    exact hsqrt2
  refine ⟨h1, ?_⟩
  rw [e1, e2, e3, e4, h1]
  simp only [max_self]
  have hc : ((2 : ℚ) : ℝ) = (2 : ℝ) := by norm_num
  rw [hc]
  have hlt : (1 : ℝ) < Real.sqrt 2 := by
    rw [show (1 : ℝ) = Real.sqrt 1 from (Real.sqrt_one).symm]
    exact Real.sqrt_lt_sqrt (by norm_num) (by norm_num)
  push_cast
  exact ne_of_gt hlt

/-- Sum of the pixel intensities, over ℚ. -/
def intensitySum (g : List Nat) : ℚ := (g.map (fun x : Nat => (x : ℚ))).sum

/-- Mean pixel intensity. -/
def meanIntensity (g : List Nat) : ℚ := intensitySum g / (g.length : ℚ)

/-- np.var of the grayscale cell: the population variance of the pixel
intensities, over ℚ. -/
def variance (g : List Nat) : ℚ :=
  (g.map (fun x : Nat => ((x : ℚ) - meanIntensity g)^2)).sum / (g.length : ℚ)

/-- cv2.calcHist with 256 bins over [0, 256): the count of pixels at each
intensity. -/
def histCounts (g : List Nat) : List Nat :=
  (List.range 256).map (fun i => g.count i)

/-- np.max(hist). -/
def peakCount (g : List Nat) : Nat := (histCounts g).foldr max 0

/-- peak_ratio = np.max(hist) / np.sum(hist). -/
def peakFraction (g : List Nat) : ℚ :=
  (peakCount g : ℚ) / (((histCounts g).sum : Nat) : ℚ)

/-- BoardAnalyzer._is_cell_empty: empty when the intensity variance is
below 100, else empty when the most populous histogram bin holds more than
half of the pixels, else non-empty. -/
def isCellEmpty (g : List Nat) : Bool :=
  if variance g < 100 then true
  else if 1 / 2 < peakFraction g then true
  else false

theorem intensitySum_replicate (n c : Nat) :
    intensitySum (List.replicate n c) = (n : ℚ) * (c : ℚ) := by
  unfold intensitySum
  induction n with
  | zero => simp
  | succ n ih =>
    rw [List.replicate_succ, List.map_cons, List.sum_cons, ih]
    push_cast
    ring

theorem sum_map_replicate_zero (n c : Nat) :
    ((List.replicate n c).map (fun x : Nat => ((x : ℚ) - (c : ℚ))^2)).sum = 0 := by
  induction n with
  | zero => simp
  | succ n ih =>
    rw [List.replicate_succ, List.map_cons, List.sum_cons, ih]
    simp

theorem meanIntensity_replicate (k c : Nat) :
    meanIntensity (List.replicate (k + 1) c) = (c : ℚ) := by
  unfold meanIntensity
  rw [intensitySum_replicate, List.length_replicate]
  have hne : ((k + 1 : Nat) : ℚ) ≠ 0 := by positivity
  exact mul_div_cancel_left₀ (c : ℚ) hne

theorem variance_replicate (k c : Nat) : variance (List.replicate (k + 1) c) = 0 := by
  unfold variance
  simp only [meanIntensity_replicate]
  rw [sum_map_replicate_zero, zero_div]

/-- Claim C4: a cell is classified empty exactly when the grayscale
variance is below 100, or the variance is at least 100 and the most
populous histogram bin holds strictly more than half the pixels; in
particular every solid-color (constant) cell is classified empty. -/
theorem claim4_is_cell_empty (g : List Nat) (hg : g ≠ []) :
    (isCellEmpty g = true ↔
      variance g < 100 ∨ (100 ≤ variance g ∧ 1 / 2 < peakFraction g)) ∧
    (∀ (k c : Nat), isCellEmpty (List.replicate (k + 1) c) = true) := by
  constructor
  · unfold isCellEmpty
    split_ifs with h1 h2
    · exact ⟨fun _ => Or.inl h1, fun _ => rfl⟩
    · exact ⟨fun _ => Or.inr ⟨not_lt.mp h1, h2⟩, fun _ => rfl⟩
    · constructor
      · intro hf
        exact absurd hf (by simp)
      · rintro (h | ⟨_, h⟩)
        · exact absurd h h1
        · exact absurd h h2
  · intro k c
    unfold isCellEmpty
    rw [variance_replicate]
    norm_num

/-- Concrete instance of claim C4 at the two-pixel cell [0, 255]. -/
theorem claim4_witness :
    ([0, 255] : List Nat) ≠ [] ∧
    ((isCellEmpty [0, 255] = true ↔
      variance [0, 255] < 100 ∨ (100 ≤ variance [0, 255] ∧ 1 / 2 < peakFraction [0, 255])) ∧
    (∀ (k c : Nat), isCellEmpty (List.replicate (k + 1) c) = true)) :=
  ⟨by decide, claim4_is_cell_empty [0, 255] (by decide)⟩

/-- One OCR candidate as consumed by the scan loop: the recognized text and
its confidence (the bounding box returned by the oracle is never used). -/
abbrev Candidate : Type := String × ℚ

/-- Python str.strip(): remove leading and trailing whitespace. -/
def pyStrip (s : String) : String :=
  String.mk (((s.data.dropWhile Char.isWhitespace).reverse.dropWhile
    Char.isWhitespace).reverse)

/-- Python str.upper(), on the basic latin letters. -/
def pyUpper (s : String) : String := String.mk (s.data.map Char.toUpper)

/-- Python str.isalpha(), restricted to the basic latin letters. -/
def pyIsAlpha (s : String) : Bool := !s.data.isEmpty && s.data.all Char.isAlpha

/-- The acceptance test of the scan loop of _recognize_cell: confidence at
or above the threshold, nonempty text, and the stripped, uppercased text is
exactly one alphabetic character. -/
def qualifies (thr : ℚ) (cand : Candidate) : Bool :=
  decide (thr ≤ cand.2) && decide (cand.1 ≠ "") &&
    ((pyUpper (pyStrip cand.1)).length == 1 && pyIsAlpha (pyUpper (pyStrip cand.1)))

/-- The candidate scan loop of _recognize_cell (lines 313-323): take the
first candidate whose confidence reaches the threshold and whose text is
nonempty, and whose stripped, uppercased text is a single alphabetic
character; return that letter, else keep scanning. -/
def recognizeScan (thr : ℚ) : List Candidate → Option String
  | [] => none
  | cand :: rest =>
    if thr ≤ cand.2 ∧ cand.1 ≠ "" then
      if (pyUpper (pyStrip cand.1)).length = 1 ∧ pyIsAlpha (pyUpper (pyStrip cand.1)) then
        some (pyUpper (pyStrip cand.1))
      else recognizeScan thr rest
    else recognizeScan thr rest

/-- BoardAnalyzer._recognize_cell: an empty-looking cell yields no letter;
otherwise the OCR candidate list — a parameter standing for the result of
ocr_reader.readtext on the preprocessed cell — is scanned in order, and an
empty result list yields no letter. -/
def recognizeCell (thr : ℚ) (cell : List Nat) (results : List Candidate) :
    Option String :=
  if isCellEmpty cell then none
  else if results = [] then none
  else recognizeScan thr results

/-- The scan loop returns the stripped, uppercased text of the first
qualifying candidate. -/
theorem recognizeScan_eq_find (thr : ℚ) (results : List Candidate) :
    recognizeScan thr results =
      (results.find? (qualifies thr)).map (fun cand => pyUpper (pyStrip cand.1)) := by
  induction results with
  | nil => rfl
  | cons cand rest ih =>
    rw [recognizeScan]
    by_cases h1 : thr ≤ cand.2
    · by_cases h2 : cand.1 = ""
      · have hq : qualifies thr cand = false := by
          unfold qualifies
          simp [h2]
        rw [if_neg (by tauto), List.find?_cons_of_neg _ (by simp [hq]), ih]
      · by_cases h3 : (pyUpper (pyStrip cand.1)).length = 1 ∧
            pyIsAlpha (pyUpper (pyStrip cand.1))
        · have hq : qualifies thr cand = true := by
            unfold qualifies
            simp [h1, h2, h3.1, h3.2]
          rw [if_pos ⟨h1, h2⟩, if_pos h3, List.find?_cons_of_pos _ hq]
          rfl
        · have hq : qualifies thr cand = false := by
            unfold qualifies
            rcases Decidable.not_and_iff_or_not.mp h3 with h | h
            · simp [Nat.beq_eq, h]
            · simp [h]
          rw [if_pos ⟨h1, h2⟩, if_neg h3, List.find?_cons_of_neg _ (by simp [hq]), ih]
    · have hq : qualifies thr cand = false := by
        unfold qualifies
        simp [h1]
      rw [if_neg (by tauto), List.find?_cons_of_neg _ (by simp [hq]), ih]

set_option maxRecDepth 8000 in
theorem isCellEmpty_two_pixel : isCellEmpty [0, 255] = false := by
  unfold isCellEmpty
  have hv : variance [0, 255] = 65025 / 4 := by
    unfold variance meanIntensity intensitySum
    norm_num
  have hp : peakFraction [0, 255] = 1 / 2 := by
    have h1 : peakCount [0, 255] = 1 := by decide
    have h2 : (histCounts [0, 255]).sum = 2 := by decide
    unfold peakFraction
    rw [h1, h2]
    norm_num
  rw [if_neg (by rw [hv]; norm_num), if_neg (by rw [hp]; norm_num)]

/-- Claim C1: on a non-empty-looking cell, _recognize_cell scans the OCR
candidates in the oracle's order and returns the stripped, uppercased text
of the first candidate whose confidence reaches the threshold and whose
text strips to exactly one alphabetic character, or no letter when no
candidate qualifies.  In particular, with threshold 1/2 the stubbed list
[("A", 3/10), ("B", 9/10)] yields "B" and [("AB", 99/100)] yields no
letter. -/
theorem claim1_recognize_first (thr : ℚ) (cell : List Nat) (results : List Candidate)
    (h : isCellEmpty cell = false) :
    recognizeCell thr cell results =
      (results.find? (qualifies thr)).map (fun cand => pyUpper (pyStrip cand.1)) ∧
    recognizeCell (1 / 2) cell [("A", 3 / 10), ("B", 9 / 10)] = some "B" ∧
    recognizeCell (1 / 2) cell [("AB", 99 / 100)] = none := by
  have hcell : ∀ (t : ℚ) (rs : List Candidate),
      recognizeCell t cell rs = recognizeScan t rs := by
    intro t rs
    unfold recognizeCell
    rw [h]
    rcases rs with _ | ⟨c, rest⟩
    · simp [recognizeScan]
    · simp
  refine ⟨?_, ?_, ?_⟩
  · rw [hcell, recognizeScan_eq_find]
  · rw [hcell]
    have e1 : recognizeScan ((1 : ℚ) / 2) [("A", 3 / 10), ("B", 9 / 10)] =
        recognizeScan ((1 : ℚ) / 2) [("B", 9 / 10)] := by
      rw [recognizeScan, if_neg]
      rintro ⟨hc, -⟩
      norm_num at hc
    have e2 : recognizeScan ((1 : ℚ) / 2) [("B", 9 / 10)] = some "B" := by
      rw [recognizeScan,
        if_pos ⟨show (1 : ℚ) / 2 ≤ 9 / 10 by norm_num, by decide⟩,
        if_pos (by decide)]
      decide
    rw [e1, e2]
  · rw [hcell]
    rw [recognizeScan,
      if_pos ⟨show (1 : ℚ) / 2 ≤ 99 / 100 by norm_num, by decide⟩,
      if_neg (by decide)]
    rfl

/-- Concrete instance of claim C1 on the non-empty cell [0, 255], threshold
7/10, with a multi-character and a lowercase candidate. -/
theorem claim1_witness :
    recognizeCell (7 / 10) [0, 255] [("AB", 99 / 100), ("b", 8 / 10)] =
      (([("AB", 99 / 100), ("b", 8 / 10)] : List Candidate).find?
        (qualifies (7 / 10))).map (fun cand => pyUpper (pyStrip cand.1)) ∧
    recognizeCell (1 / 2) [0, 255] [("A", 3 / 10), ("B", 9 / 10)] = some "B" ∧
    recognizeCell (1 / 2) [0, 255] [("AB", 99 / 100)] = none :=
  claim1_recognize_first (7 / 10) [0, 255] [("AB", 99 / 100), ("b", 8 / 10)]
    isCellEmpty_two_pixel

/-- One extracted contour, carrying the two oracle outputs the filter
consumes: area = cv2.contourArea(contour) and approx = the vertices of
cv2.approxPolyDP(contour, 0.02 * arcLength, True). -/
structure Contour where
  area : ℚ
  approx : List Pt
deriving DecidableEq

/-- The (area, corners) candidate list built by _find_board_contour: keep
contours whose area is at least 10% of the image area and whose polygon
approximation has exactly 4 vertices. -/
def candidatePairs (imageArea : ℚ) (contours : List Contour) : List (ℚ × List Pt) :=
  contours.filterMap (fun c =>
    if c.area < imageArea * (1 / 10) then none
    else if c.approx.length = 4 then some (c.area, c.approx) else none)

/-- Stable insertion for the descending sort by area (Python list.sort with
reverse=True keeps the original order of equal keys). -/
def insertDesc (p : ℚ × List Pt) : List (ℚ × List Pt) → List (ℚ × List Pt)
  | [] => [p]
  | q :: qs => if q.1 ≤ p.1 then p :: q :: qs else q :: insertDesc p qs

/-- candidates.sort(key=area, reverse=True), stable. -/
def sortDesc (l : List (ℚ × List Pt)) : List (ℚ × List Pt) := l.foldr insertDesc []

/-- BoardAnalyzer._find_board_contour: filter, sort by descending area and
return the corners of the first candidate, or None when no contour
qualifies. -/
def findBoardContour (imageArea : ℚ) (contours : List Contour) : Option (List Pt) :=
  match sortDesc (candidatePairs imageArea contours) with
  | [] => none
  | best :: _ => some best.2

/-- The contours that pass the area and quadrilateral filters. -/
def qualifying (imageArea : ℚ) (contours : List Contour) : List Contour :=
  contours.filter (fun c =>
    !(decide (c.area < imageArea * (1 / 10))) && c.approx.length == 4)

/-- BoardAnalyzer._detect_board_region: when the contour oracle returns no
contours, or no board contour is found, the unmodified input image is
used; otherwise the perspective transform (a parameter) is applied.
Images are abstracted to their (height, width) shape, with
image_area = shape[0] * shape[1]. -/
def detectBoardRegion (contoursOf : Nat × Nat → List Contour)
    (transform : Nat × Nat → List Pt → Nat × Nat) (img : Nat × Nat) : Nat × Nat :=
  if contoursOf img = [] then img
  else
    match findBoardContour ((img.1 : ℚ) * (img.2 : ℚ)) (contoursOf img) with
    | none => img
    | some corners => transform img corners

theorem candidatePairs_eq (imageArea : ℚ) (contours : List Contour) :
    candidatePairs imageArea contours =
      (qualifying imageArea contours).map (fun c => (c.area, c.approx)) := by
  unfold candidatePairs qualifying
  induction contours with
  | nil => rfl
  | cons c cs ih =>
    by_cases h1 : c.area < imageArea * (1 / 10)
    · rw [List.filterMap_cons_none (by rw [if_pos h1]),
        List.filter_cons_of_neg (by rw [decide_eq_true h1]; simp)]
      exact ih
    · by_cases h2 : c.approx.length = 4
      · rw [List.filterMap_cons_some (by rw [if_neg h1, if_pos h2]),
          List.filter_cons_of_pos (by rw [decide_eq_false h1]; simp [h2]), List.map_cons]
        exact congrArg _ ih
      · rw [List.filterMap_cons_none (by rw [if_neg h1, if_neg h2]),
          List.filter_cons_of_neg (by rw [decide_eq_false h1]; simp [h2])]
        exact ih

theorem insertDesc_perm (p : ℚ × List Pt) (l : List (ℚ × List Pt)) :
    (insertDesc p l).Perm (p :: l) := by
  induction l with
  | nil => exact List.Perm.refl _
  | cons q qs ih =>
    rw [insertDesc]
    split_ifs
    · exact List.Perm.refl _
    · exact (List.Perm.cons q ih).trans (List.Perm.swap p q qs)

theorem sortDesc_perm (l : List (ℚ × List Pt)) : (sortDesc l).Perm l := by
  induction l with
  | nil => exact List.Perm.refl _
  | cons x xs ih =>
    have : sortDesc (x :: xs) = insertDesc x (sortDesc xs) := rfl
    rw [this]
    exact (insertDesc_perm x (sortDesc xs)).trans (List.Perm.cons x ih)

theorem insertDesc_sorted (p : ℚ × List Pt) (l : List (ℚ × List Pt))
    (h : l.Pairwise (fun u v => v.1 ≤ u.1)) :
    (insertDesc p l).Pairwise (fun u v => v.1 ≤ u.1) := by
  induction l with
  | nil => simp [insertDesc]
  | cons q qs ih =>
    rw [insertDesc]
    rw [List.pairwise_cons] at h
    obtain ⟨hq, hqs⟩ := h
    split_ifs with hle
    · rw [List.pairwise_cons]
      refine ⟨fun r hr => ?_, List.pairwise_cons.mpr ⟨hq, hqs⟩⟩
      rcases List.mem_cons.mp hr with rfl | hr
      · exact hle
      · exact le_trans (hq r hr) hle
    · rw [List.pairwise_cons]
      refine ⟨fun r hr => ?_, ih hqs⟩
      have hmem := (insertDesc_perm p qs).mem_iff.mp hr
      rcases List.mem_cons.mp hmem with rfl | hr'
      · exact le_of_lt (not_le.mp hle)
      · exact hq r hr'

theorem sortDesc_sorted (l : List (ℚ × List Pt)) :
    (sortDesc l).Pairwise (fun u v => v.1 ≤ u.1) := by
  induction l with
  | nil => simp [sortDesc]
  | cons x xs ih => exact insertDesc_sorted x (sortDesc xs) ih

theorem sortDesc_head (l : List (ℚ × List Pt)) (best : ℚ × List Pt)
    (rest : List (ℚ × List Pt)) (h : sortDesc l = best :: rest) :
    best ∈ l ∧ ∀ q ∈ l, q.1 ≤ best.1 := by
  have hperm := sortDesc_perm l
  rw [h] at hperm
  constructor
  · exact hperm.mem_iff.mp (List.mem_cons_self best rest)
  · intro q hq
    have hq' : q ∈ best :: rest := hperm.symm.mem_iff.mp hq
    rcases List.mem_cons.mp hq' with rfl | hq''
    · exact le_refl _
    · have hs := sortDesc_sorted l
      rw [h, List.pairwise_cons] at hs
      exact hs.1 q hq''

/-- Claim C8: _find_board_contour returns the 4 corners of a candidate
with the greatest area among the contours whose area is at least 10% of
the image area and whose polygon approximation has exactly 4 vertices, and
returns None exactly when no contour qualifies; _detect_board_region
returns the unmodified input image when no contours are found or when no
board contour is found. -/
theorem claim8_find_board_contour (imageArea : ℚ) (cs : List Contour)
    (contoursOf : Nat × Nat → List Contour)
    (transform : Nat × Nat → List Pt → Nat × Nat) (img : Nat × Nat) :
    (findBoardContour imageArea cs = none ↔ qualifying imageArea cs = []) ∧
    (∀ pts, findBoardContour imageArea cs = some pts →
      ∃ c ∈ qualifying imageArea cs, c.approx = pts ∧
        ∀ c' ∈ qualifying imageArea cs, c'.area ≤ c.area) ∧
    (contoursOf img = [] → detectBoardRegion contoursOf transform img = img) ∧
    (findBoardContour ((img.1 : ℚ) * (img.2 : ℚ)) (contoursOf img) = none →
      detectBoardRegion contoursOf transform img = img) := by
  refine ⟨?_, ?_, ?_, ?_⟩
  · unfold findBoardContour
    rcases hs : sortDesc (candidatePairs imageArea cs) with _ | ⟨best, rest⟩
    · have hnil : candidatePairs imageArea cs = [] := by
        have := (sortDesc_perm (candidatePairs imageArea cs)).length_eq
        rw [hs] at this
        exact List.length_eq_zero.mp this.symm
      rw [candidatePairs_eq] at hnil
      simp only [List.map_eq_nil_iff] at hnil
      simp [hnil]
    · have hne : candidatePairs imageArea cs ≠ [] := by
        intro hc
        rw [hc] at hs
        exact List.cons_ne_nil best rest hs.symm
      rw [candidatePairs_eq] at hne
      constructor
      · intro hcontra
        exact absurd hcontra (by simp)
      · intro hq
        rw [hq] at hne
        exact absurd rfl hne
  · intro pts hfind
    unfold findBoardContour at hfind
    rcases hs : sortDesc (candidatePairs imageArea cs) with _ | ⟨best, rest⟩
    · rw [hs] at hfind
      exact absurd hfind (by simp)
    · rw [hs] at hfind
      have hbest : pts = best.2 := by
        simpa using hfind.symm
      obtain ⟨hmem, hmax⟩ := sortDesc_head _ best rest hs
      rw [candidatePairs_eq] at hmem hmax
      rcases List.mem_map.mp hmem with ⟨c, hc, hcb⟩
      refine ⟨c, hc, ?_, ?_⟩
      · rw [hbest, ← hcb]
      · intro c' hc'
        have := hmax (c'.area, c'.approx) (List.mem_map.mpr ⟨c', hc', rfl⟩)
        rw [← hcb] at this
        exact this
  · intro h
    unfold detectBoardRegion
    rw [if_pos h]
  · intro h
    unfold detectBoardRegion
    by_cases hcs : contoursOf img = []
    · rw [if_pos hcs]
    · rw [if_neg hcs, h]

/-- Concrete instance of claim C8: the degraded fallback on a contour-free
image, and the selection of the largest qualifying quadrilateral among a
too-small contour, two qualifying ones and a triangle. -/
theorem claim8_witness :
    detectBoardRegion (fun _ => []) (fun img _ => img) (3, 3) = (3, 3) ∧
    (∃ c ∈ qualifying 100
        [⟨5, List.replicate 4 ((0 : ℚ), (0 : ℚ))⟩,
         ⟨60, List.replicate 4 ((1 : ℚ), (1 : ℚ))⟩,
         ⟨90, List.replicate 3 ((0 : ℚ), (0 : ℚ))⟩,
         ⟨20, List.replicate 4 ((2 : ℚ), (2 : ℚ))⟩],
      c.approx = List.replicate 4 ((1 : ℚ), (1 : ℚ)) ∧
        ∀ c' ∈ qualifying 100
          [⟨5, List.replicate 4 ((0 : ℚ), (0 : ℚ))⟩,
           ⟨60, List.replicate 4 ((1 : ℚ), (1 : ℚ))⟩,
           ⟨90, List.replicate 3 ((0 : ℚ), (0 : ℚ))⟩,
           ⟨20, List.replicate 4 ((2 : ℚ), (2 : ℚ))⟩], c'.area ≤ c.area) := by
  constructor
  · exact (claim8_find_board_contour 100 [] (fun _ => []) (fun img _ => img) (3, 3)).2.2.1 rfl
  · have hcand : candidatePairs 100
        [⟨5, List.replicate 4 ((0 : ℚ), (0 : ℚ))⟩,
         ⟨60, List.replicate 4 ((1 : ℚ), (1 : ℚ))⟩,
         ⟨90, List.replicate 3 ((0 : ℚ), (0 : ℚ))⟩,
         ⟨20, List.replicate 4 ((2 : ℚ), (2 : ℚ))⟩] =
        [(60, List.replicate 4 ((1 : ℚ), (1 : ℚ))),
         (20, List.replicate 4 ((2 : ℚ), (2 : ℚ)))] := by
      unfold candidatePairs
      rw [List.filterMap_cons_none (by rw [if_pos (by norm_num)]),
        List.filterMap_cons_some (by rw [if_neg (by norm_num), if_pos (by simp)]),
        List.filterMap_cons_none (by rw [if_neg (by norm_num), if_neg (by simp)]),
        List.filterMap_cons_some (by rw [if_neg (by norm_num), if_pos (by simp)]),
        List.filterMap_nil]
    have hsort : sortDesc
        [(60, List.replicate 4 ((1 : ℚ), (1 : ℚ))),
         (20, List.replicate 4 ((2 : ℚ), (2 : ℚ)))] =
        [((60 : ℚ), List.replicate 4 ((1 : ℚ), (1 : ℚ))),
         ((20 : ℚ), List.replicate 4 ((2 : ℚ), (2 : ℚ)))] := by
      show insertDesc (60, List.replicate 4 ((1 : ℚ), (1 : ℚ)))
          [(20, List.replicate 4 ((2 : ℚ), (2 : ℚ)))] = _
      rw [insertDesc, if_pos (by norm_num)]
    have hfind : findBoardContour 100
        [⟨5, List.replicate 4 ((0 : ℚ), (0 : ℚ))⟩,
         ⟨60, List.replicate 4 ((1 : ℚ), (1 : ℚ))⟩,
         ⟨90, List.replicate 3 ((0 : ℚ), (0 : ℚ))⟩,
         ⟨20, List.replicate 4 ((2 : ℚ), (2 : ℚ))⟩] =
        some (List.replicate 4 ((1 : ℚ), (1 : ℚ))) := by
      unfold findBoardContour
      rw [hcand, hsort]
    exact (claim8_find_board_contour 100
      [⟨5, List.replicate 4 ((0 : ℚ), (0 : ℚ))⟩,
       ⟨60, List.replicate 4 ((1 : ℚ), (1 : ℚ))⟩,
       ⟨90, List.replicate 3 ((0 : ℚ), (0 : ℚ))⟩,
       ⟨20, List.replicate 4 ((2 : ℚ), (2 : ℚ))⟩]
      (fun _ => []) (fun img _ => img) (3, 3)).2.1
      (List.replicate 4 ((1 : ℚ), (1 : ℚ))) hfind

end Crossplay
